import Mathlib

/-!
Verification of the in-memory codebase grep (`memory_grep.py`,
class `InMemoryCodebase`) against its natural-language specification.

The embedding models:
  * file contents as lists of byte values (`List Nat`), mirroring the
    `mmap` byte view `mmap_obj[:]`;
  * the `self.files` dict as an association list in insertion order
    (CPython dicts preserve insertion order, so iteration over
    `self.files.items()` follows it);
  * Python library primitives used by the code (`bytes.split`,
    `bytes.decode("utf-8", errors="replace")`, `str.rstrip`,
    `pathlib.Path.suffix` and `.name`, `os.path.relpath`,
    `re.compile` on a restricted fragment) as executable Lean
    functions, each documented at its definition.
-/

/-! ### Byte-level helpers (Python library primitives) -/

/-- Models `bytes.split(sep)` for a single separator byte: the file bytes
are decomposed at every occurrence of `sep`; the result always has
(number of separators + 1) elements, and `[[]]` on empty input, exactly
as in Python. Used with `sep = 10` for `content.split(b"\n")`. -/
def splitByte (sep : Nat) : List Nat → List (List Nat)
  | [] => [[]]
  | b :: bs =>
    if b == sep then [] :: splitByte sep bs
    else
      match splitByte sep bs with
      | [] => [[b]]
      | h :: t => (b :: h) :: t

/-- Unicode replacement character U+FFFD. -/
def replChar : Char := Char.ofNat 0xFFFD

/-- Is `b` a UTF-8 continuation byte (0x80..0xBF)? -/
def isCont (b : Nat) : Bool := 0x80 ≤ b && b ≤ 0xBF

/-- Valid first continuation byte for a three-byte lead `b`
(E0 requires A0..BF, ED requires 80..9F to exclude surrogates). -/
def cont1ok3 (b b1 : Nat) : Bool :=
  if b = 0xE0 then 0xA0 ≤ b1 && b1 ≤ 0xBF
  else if b = 0xED then 0x80 ≤ b1 && b1 ≤ 0x9F
  else isCont b1

/-- Valid first continuation byte for a four-byte lead `b`
(F0 requires 90..BF, F4 requires 80..8F to stay below U+110000). -/
def cont1ok4 (b b1 : Nat) : Bool :=
  if b = 0xF0 then 0x90 ≤ b1 && b1 ≤ 0xBF
  else if b = 0xF4 then 0x80 ≤ b1 && b1 ≤ 0x8F
  else isCont b1

/-- Models CPython `bytes.decode("utf-8", errors="replace")`: a total
decoder. Each maximal subpart of an ill-formed sequence (the lead byte
together with the continuation bytes that are still valid for it) is
replaced by one U+FFFD, matching the CPython error handler; decoding
therefore never fails on any byte input. -/
def utf8DecodeReplace : List Nat → List Char
  | [] => []
  | b :: bs =>
    if b < 0x80 then Char.ofNat b :: utf8DecodeReplace bs
    else if 0xC2 ≤ b && b ≤ 0xDF then
      match bs with
      | [] => [replChar]
      | b1 :: bs1 =>
        if isCont b1 then
          Char.ofNat ((b - 0xC0) * 64 + (b1 - 0x80)) :: utf8DecodeReplace bs1
        else replChar :: utf8DecodeReplace (b1 :: bs1)
    else if 0xE0 ≤ b && b ≤ 0xEF then
      match bs with
      | [] => [replChar]
      | b1 :: bs1 =>
        if cont1ok3 b b1 then
          match bs1 with
          | [] => [replChar]
          | b2 :: bs2 =>
            if isCont b2 then
              Char.ofNat ((b - 0xE0) * 4096 + (b1 - 0x80) * 64 + (b2 - 0x80)) ::
                utf8DecodeReplace bs2
            else replChar :: utf8DecodeReplace (b2 :: bs2)
        else replChar :: utf8DecodeReplace (b1 :: bs1)
    else if 0xF0 ≤ b && b ≤ 0xF4 then
      match bs with
      | [] => [replChar]
      | b1 :: bs1 =>
        if cont1ok4 b b1 then
          match bs1 with
          | [] => [replChar]
          | b2 :: bs2 =>
            if isCont b2 then
              match bs2 with
              | [] => [replChar]
              | b3 :: bs3 =>
                if isCont b3 then
                  Char.ofNat ((b - 0xF0) * 262144 + (b1 - 0x80) * 4096 +
                      (b2 - 0x80) * 64 + (b3 - 0x80)) :: utf8DecodeReplace bs3
                else replChar :: utf8DecodeReplace (b3 :: bs3)
            else replChar :: utf8DecodeReplace (b2 :: bs2)
        else replChar :: utf8DecodeReplace (b1 :: bs1)
    else replChar :: utf8DecodeReplace bs

/-- Models Python `str.rstrip("\r\n")`: removes ALL trailing characters
drawn from the set {CR, LF} (Python `rstrip` with an argument strips a
character set repeatedly, not a single occurrence). -/
def pyRstripCRLF (cs : List Char) : List Char :=
  (cs.reverse.dropWhile (fun c => c == '\r' || c == '\n')).reverse

/-- The line text the scanner records for a matching line:
`line.decode("utf-8", errors="replace").rstrip("\r\n")`. -/
def decodeLine (l : List Nat) : String :=
  String.mk (pyRstripCRLF (utf8DecodeReplace l))

/-- Is `pat` a contiguous subsequence of `s`? Models the Python `in`
operator on strings/bytes and literal-substring regex search. -/
def containsSeq [BEq α] (pat : List α) : List α → Bool
  | [] => pat.isEmpty
  | a :: rest => pat.isPrefixOf (a :: rest) || containsSeq pat rest

/-! ### Path helpers (`pathlib` / `os.path` primitives) -/

/-- Splits a character list at every occurrence of `sep` (the analogue
of `splitByte` for characters, modelling `str.split(sep)`). -/
def splitChar (sep : Char) : List Char → List (List Char)
  | [] => [[]]
  | c :: cs =>
    if c == sep then [] :: splitChar sep cs
    else
      match splitChar sep cs with
      | [] => [[c]]
      | h :: t => (c :: h) :: t

/-- Models the component split performed by `pathlib.PurePosixPath` (and
by `os.path.relpath` after `abspath` normalisation): split on `/` and
drop empty and `.` components. -/
def pathParts (s : String) : List String :=
  ((splitChar '/' s.data).map String.mk).filter (fun t => !(t == "") && !(t == "."))

/-- Models `pathlib.Path(p).name`: the final path component, or the
empty string when there is none. -/
def pathName (s : String) : String := (pathParts s).getLast?.getD ""

/-- Index of the last occurrence of `.` in the list, if any
(models `str.rfind(".")` restricted to a found/not-found outcome). -/
def rfindDotAux : List Char → Option Nat
  | [] => none
  | c :: cs =>
    match rfindDotAux cs with
    | some i => some (i + 1)
    | none => if c == '.' then some 0 else none

/-- Models `pathlib.PurePath.suffix` computed from the file name `nm`:
the substring from the last dot onward, provided that dot is neither the
first nor the last character; otherwise the empty string. -/
def pathSuffix (nm : String) : String :=
  match rfindDotAux nm.data with
  | some i => if 0 < i ∧ i + 1 < nm.data.length then String.mk (nm.data.drop i) else ""
  | none => ""

/-- Models Python `str.lower()` (ASCII letters; path constants compared
against are all ASCII). -/
def strLower (s : String) : String := String.mk (s.data.map Char.toLower)

/-- Length of the longest common prefix of two component lists
(models `os.path.commonprefix` on split path components). -/
def commonPrefixLen : List String → List String → Nat
  | a :: as, b :: bs => if a = b then commonPrefixLen as bs + 1 else 0
  | _, _ => 0

/-- Models `os.path.relpath(path, start)` for normalised POSIX paths
(the `abspath` step inside `relpath` is then a no-op apart from removing
empty and `.` components, which `pathParts` performs). The guard on the
empty path models the `except ValueError: rel_path = filepath` branch of
`grep_formatted`, since `relpath` raises `ValueError` on an empty path. -/
def relpathModel (path start : String) : String :=
  if path = "" then path
  else
    let pl := pathParts path
    let sl := pathParts start
    let i := commonPrefixLen sl pl
    let rel := List.replicate (sl.length - i) ".." ++ pl.drop i
    if rel = [] then "." else String.intercalate "/" rel

/-! ### `InMemoryCodebase._is_text_file` -/

/-- The closed set of recognised source/text extensions from
`_is_text_file` (`text_extensions` in the source). -/
def text_extensions : List String :=
  [".py", ".js", ".ts", ".jsx", ".tsx", ".java", ".c", ".cpp", ".h", ".hpp",
   ".go", ".rs", ".rb", ".php", ".cs", ".swift", ".kt", ".scala", ".r",
   ".html", ".css", ".scss", ".sass", ".less", ".json", ".yaml", ".yml",
   ".md", ".txt", ".xml", ".sql", ".sh", ".bash", ".zsh", ".fish", ".toml",
   ".ini", ".conf", ".config", ".env", ".proto", ".graphql", ".vue",
   ".svelte", ".elm", ".ex", ".exs", ".erl", ".hrl", ".clj", ".lua", ".pl",
   ".pm", ".raku", ".vim", ".el", ".lisp", ".scm", ".gradle", ".properties",
   ".dockerfile", ".makefile", ".cmake"]

/-- The closed set of extension-less file names from `_is_text_file`
(`text_filenames` in the source). -/
def text_filenames : List String :=
  ["makefile", "dockerfile", "rakefile", "gemfile", "procfile", "readme",
   "license", "changelog", "contributing", "authors"]

/-- Models `InMemoryCodebase._is_text_file`: true when the lowercased
suffix of the path is a recognised extension, otherwise when the
lowercased file name is a recognised extension-less name. -/
def is_text_file (filepath : String) : Bool :=
  if strLower (pathSuffix (pathName filepath)) ∈ text_extensions then true
  else decide (strLower (pathName filepath) ∈ text_filenames)

/-! ### The codebase and its loading -/

/-- The in-memory codebase: `codebase_path` is the repository root given
to the constructor; `files` models the `self.files` dict (path to mapped
bytes) as an association list in dict insertion order. -/
structure Codebase where
  codebase_path : String
  files : List (String × List Nat)

/-- Models the file-admission logic of `_load_codebase` and `_mmap_file`
applied to the sequence `fs` of (path, contents) pairs encountered by
the directory walk: a file enters `self.files` exactly when
`_is_text_file` accepts its path, its size is non-zero, and mapping it
succeeds (`mmapOk` abstracts the `mmap` call, whose failures are caught
and the file skipped). -/
def load_codebase (fs : List (String × List Nat)) (mmapOk : String → Bool) :
    List (String × List Nat) :=
  fs.filter (fun pc => is_text_file pc.1 && !(pc.2.length == 0) && mmapOk pc.1)

/-! ### `InMemoryCodebase.grep` -/

/-- Models the path filter test in the scan loop:
`if path_filter and path_filter not in filepath: continue` — the file is
kept when the filter is absent or falsy (empty), or when it occurs as a
substring of the file path. -/
def pfKeep (path_filter : Option String) (filepath : String) : Bool :=
  match path_filter with
  | none => true
  | some s => s == "" || containsSeq s.data filepath.data

/-- The 1-based matching line numbers of a list of lines, paired with
the raw line bytes; `i` is the number of the first line in `ls`
(models `for line_num, line in enumerate(lines, start=1)` plus the
`regex.search(line)` test). -/
def matchLinesAux (rx : List Nat → Bool) (i : Nat) : List (List Nat) → List (Nat × List Nat)
  | [] => []
  | l :: ls =>
    if rx l then (i, l) :: matchLinesAux rx (i + 1) ls
    else matchLinesAux rx (i + 1) ls

/-- All matches of `rx` in one file content: split on `\n`, test each
line, record the 1-based line number and the decoded, stripped text. -/
def scanFile (rx : List Nat → Bool) (content : List Nat) : List (Nat × String) :=
  (matchLinesAux rx 1 (splitByte 10 content)).map (fun nl => (nl.1, decodeLine nl.2))

/-- The scan loop of `grep` over the remaining files: `count` is the
number of results accumulated so far (`len(results)`). A file is skipped
by the path filter; once `count` reaches `max_results` the whole loop
breaks; inside a file, matches are appended until the cumulative count
reaches `max_results` (hence the `take`), after which the inner loop
breaks and then the outer loop breaks on the next file. -/
def grepLoop (rx : List Nat → Bool) (path_filter : Option String) (max_results : Nat) :
    List (String × List Nat) → Nat → List (String × Nat × String)
  | [], _ => []
  | (p, c) :: rest, count =>
    if pfKeep path_filter p = false then grepLoop rx path_filter max_results rest count
    else if max_results ≤ count then []
    else
      let ms := (scanFile rx c).take (max_results - count)
      ms.map (fun ns => (p, ns.1, ns.2)) ++
        grepLoop rx path_filter max_results rest (count + ms.length)

/-- Models `InMemoryCodebase.grep`. The regex compilation
`re.compile(pattern.encode("utf-8"), flags)` is abstracted by the
`compile` parameter, which receives the pattern and the
case-sensitivity flag and either fails with the compiler message (the
`re.error` branch, which makes `grep` print the message and return the
empty list) or yields the compiled byte-line matcher used by
`regex.search`. -/
def grep (compile : String → Bool → Except String (List Nat → Bool))
    (cb : Codebase) (pattern : String) (path_filter : Option String)
    (max_results : Nat) (case_sensitive : Bool) : List (String × Nat × String) :=
  match compile pattern case_sensitive with
  | Except.error _ => []
  | Except.ok rx => grepLoop rx path_filter max_results cb.files 0

/-! ### `InMemoryCodebase.grep_formatted` -/

/-- Models `InMemoryCodebase.grep_formatted`: runs `grep` with the
default `case_sensitive=True` (the method exposes no case parameter),
then renders one `relpath:line:content` line per match followed by the
summary, or the no-matches message when the result list is empty. -/
def grep_formatted (compile : String → Bool → Except String (List Nat → Bool))
    (cb : Codebase) (pattern : String) (path_filter : Option String)
    (max_results : Nat) : String :=
  let results := grep compile cb pattern path_filter max_results true
  if results = [] then "No matches found for pattern: " ++ pattern
  else
    let output_lines := results.map
      (fun r => relpathModel r.1 cb.codebase_path ++ ":" ++ Nat.repr r.2.1 ++ ":" ++ r.2.2)
    let summary := "\n--- Found " ++ Nat.repr results.length ++ " matches" ++
      (if results.length = max_results then
        " (limited to first " ++ Nat.repr max_results ++ ")" else "") ++ " ---"
    String.intercalate "\n" output_lines ++ summary

/-- The same rendering as `grep_formatted`, as a standalone function of
an arbitrary result list. Used to compare the formatted convenience
path against results `grep_formatted` itself cannot produce (such as a
case-insensitive search). -/
def format_results (codebase_path : String) (pattern : String) (max_results : Nat)
    (results : List (String × Nat × String)) : String :=
  if results = [] then "No matches found for pattern: " ++ pattern
  else
    let output_lines := results.map
      (fun r => relpathModel r.1 codebase_path ++ ":" ++ Nat.repr r.2.1 ++ ":" ++ r.2.2)
    let summary := "\n--- Found " ++ Nat.repr results.length ++ " matches" ++
      (if results.length = max_results then
        " (limited to first " ++ Nat.repr max_results ++ ")" else "") ++ " ---"
    String.intercalate "\n" output_lines ++ summary

/-- The unbounded scan: every match of every file that passes the path
filter, in corpus order. `grepLoop` is proved below to return a prefix
(`take max_results`) of this list. -/
def grepAll (rx : List Nat → Bool) (path_filter : Option String) :
    List (String × List Nat) → List (String × Nat × String)
  | [] => []
  | (p, c) :: rest =>
    (if pfKeep path_filter p then (scanFile rx c).map (fun ns => (p, ns.1, ns.2)) else [])
      ++ grepAll rx path_filter rest

/-- Total number of matches a scan of the whole corpus would produce
with no result bound. -/
def allMatchCount (rx : List Nat → Bool) (path_filter : Option String)
    (cb : Codebase) : Nat :=
  (grepAll rx path_filter cb.files).length

/-- Position of the first occurrence of a path in the corpus key list
(the dict insertion order). -/
def pathPos (L : List String) (p : String) : Nat :=
  match L with
  | [] => 0
  | q :: rest => if q = p then 0 else pathPos rest p + 1

/-- Strict ordering of two results relative to the corpus key list `L`:
either the first result comes from a strictly earlier corpus file, or
both come from the same file and the line numbers strictly increase. -/
def resLt (L : List String) (a b : String × Nat × String) : Prop :=
  pathPos L a.1 < pathPos L b.1 ∨ (a.1 = b.1 ∧ a.2.1 < b.2.1)

/-- Written from the words of the specification sentence under test for
the reported line text: remove A SINGLE trailing CR or LF, if present.
Compared against the implementation, which strips all of them. -/
def specStripSingleCRLF (cs : List Char) : List Char :=
  match cs.getLast? with
  | some c => if c = '\r' ∨ c = '\n' then cs.dropLast else cs
  | none => cs

/-! ### A concrete model of `re.compile` on a small fragment

`grep` compiles `pattern.encode("utf-8")` with `re.compile`, with
`re.IGNORECASE` when `case_sensitive` is false. Full Python regex
semantics is outside the embedding; the concrete theorems below only
need the following fragment, which `compileModel` reproduces exactly:

  * a non-empty pattern containing no regex metacharacter compiles to a
    literal byte search, and `regex.search(line)` succeeds exactly when
    the pattern bytes occur as a contiguous substring of the line;
    under `IGNORECASE` a byte pattern is matched with ASCII case
    folding on both sides;
  * a pattern `[c...]` whose class members are plain literal characters
    (no ranges, no negation) searches for any single byte of the class,
    with the same ASCII folding under `IGNORECASE`;
  * the pattern `(` fails to compile with the `re.error` message
    `missing ), unterminated subpattern at position 0`.

Patterns outside this fragment are rejected with a model-only error and
appear in no theorem. -/

/-- ASCII case folding applied by `re.IGNORECASE` on byte patterns:
uppercase ASCII letters map to lowercase, all other bytes unchanged. -/
def asciiFold (b : Nat) : Nat := if 65 ≤ b && b ≤ 90 then b + 32 else b

/-- The regex metacharacter bytes: `. ^ $ * + ? { } [ ] \ | ( )`. -/
def reMeta : List Nat := [46, 94, 36, 42, 43, 63, 123, 125, 91, 93, 92, 124, 40, 41]

/-- A byte that stands for itself in a pattern: ASCII and not a
metacharacter. -/
def isPlainByte (b : Nat) : Bool := b < 128 && !(reMeta.contains b)

/-- Models `re.compile(pattern.encode("utf-8"), flags)` followed by
`regex.search` on the fragment described above. -/
def compileModel (pattern : String) (case_sensitive : Bool) :
    Except String (List Nat → Bool) :=
  let pb := pattern.data.map Char.toNat
  if pattern = "(" then
    Except.error "missing ), unterminated subpattern at position 0"
  else if !pb.isEmpty && pb.all isPlainByte then
    Except.ok (fun line =>
      if case_sensitive then containsSeq pb line
      else containsSeq (pb.map asciiFold) (line.map asciiFold))
  else if pb.head? == some 91 && pb.getLast? == some 93 && decide (3 ≤ pb.length) &&
      (pb.drop 1).dropLast.all (fun b => isPlainByte b && !(b == 45)) then
    Except.ok (fun line =>
      line.any (fun b => (pb.drop 1).dropLast.any (fun c =>
        if case_sensitive then decide (b = c)
        else decide (asciiFold b = asciiFold c))))
  else Except.error "unsupported pattern in model"

/-- Models a client-visible invocation of the `grep_formatted` method on
the live `InMemoryCodebase` object: the method only reads `self.files`
and `self.codebase_path` (its body assigns to no attribute of `self`),
so the invocation returns its output together with the unchanged object
state. -/
def grep_formatted_call (compile : String → Bool → Except String (List Nat → Bool))
    (cb : Codebase) (pattern : String) (path_filter : Option String)
    (max_results : Nat) : String × Codebase :=
  (grep_formatted compile cb pattern path_filter max_results, cb)
/-! ### Basic properties of the scanning primitives -/

theorem splitByte_ne_nil (sep : Nat) (l : List Nat) : splitByte sep l ≠ [] := by
  cases l with
  | nil => simp [splitByte]
  | cons b bs =>
    unfold splitByte
    split
    · simp
    · split <;> simp

theorem splitByte_length (sep : Nat) (c : List Nat) :
    (splitByte sep c).length = c.count sep + 1 := by
  induction c with
  | nil => simp [splitByte]
  | cons b bs ih =>
    by_cases hb : b = sep
    · subst hb
      simp only [splitByte, beq_self_eq_true, if_true, List.length_cons, ih,
        List.count_cons]
    · have hb2 : (b == sep) = false := by simp [hb]
      have hne := splitByte_ne_nil sep bs
      rcases h : splitByte sep bs with _ | ⟨hh, tt⟩
      · exact absurd h hne
      · have ih2 := ih
        rw [h] at ih2
        simp only [List.length_cons] at ih2
        simp [splitByte, hb2, h, List.count_cons, Ne.symm hb]
        omega

theorem mem_matchLinesAux {rx : List Nat → Bool} {n : Nat} {l : List Nat} :
    ∀ {i : Nat} {ls : List (List Nat)},
    ((n, l) ∈ matchLinesAux rx i ls ↔
      ∃ j, j < ls.length ∧ n = i + j ∧ ls.getD j [] = l ∧ rx l = true) := by
  intro i ls
  induction ls generalizing i with
  | nil => simp [matchLinesAux]
  | cons l0 ls ih =>
    simp only [matchLinesAux]
    by_cases h : rx l0 = true
    · rw [if_pos h]
      constructor
      · intro hmem
        rcases List.mem_cons.mp hmem with heq | hmem2
        · have hn : n = i := by simpa using congrArg Prod.fst heq
          have hl : l = l0 := by simpa using congrArg Prod.snd heq
          refine ⟨0, by simp, by omega, by simp [hl], by rw [hl]; exact h⟩
        · obtain ⟨j, hj, hn, hg, hr⟩ := ih.mp hmem2
          exact ⟨j + 1, by simpa using hj, by omega, by simpa using hg, hr⟩
      · rintro ⟨j, hj, hn, hg, hr⟩
        cases j with
        | zero =>
          apply List.mem_cons.mpr
          left
          simp at hg
          have hni : n = i := by omega
          rw [hni, ← hg]
        | succ j =>
          apply List.mem_cons.mpr
          right
          exact ih.mpr ⟨j, by simpa using hj, by omega, by simpa using hg, hr⟩
    · rw [if_neg h]
      rw [ih]
      constructor
      · rintro ⟨j, hj, hn, hg, hr⟩
        exact ⟨j + 1, by simpa using hj, by omega, by simpa using hg, hr⟩
      · rintro ⟨j, hj, hn, hg, hr⟩
        cases j with
        | zero =>
          exfalso
          simp at hg
          rw [← hg] at hr
          exact h hr
        | succ j =>
          exact ⟨j, by simpa using hj, by omega, by simpa using hg, hr⟩

theorem matchLinesAux_le {rx : List Nat → Bool} :
    ∀ {i : Nat} {ls : List (List Nat)} (x : Nat × List Nat),
      x ∈ matchLinesAux rx i ls → i ≤ x.1 := by
  intro i ls
  induction ls generalizing i with
  | nil => intro x hx; simp [matchLinesAux] at hx
  | cons l0 ls ih =>
    intro x hx
    simp only [matchLinesAux] at hx
    by_cases h : rx l0 = true
    · rw [if_pos h] at hx
      rcases List.mem_cons.mp hx with heq | hmem
      · rw [heq]
      · exact Nat.le_of_succ_le (ih x hmem)
    · rw [if_neg h] at hx
      exact Nat.le_of_succ_le (ih x hx)

theorem matchLinesAux_pairwise {rx : List Nat → Bool} :
    ∀ {i : Nat} {ls : List (List Nat)},
      (matchLinesAux rx i ls).Pairwise (fun a b => a.1 < b.1) := by
  intro i ls
  induction ls generalizing i with
  | nil => simp [matchLinesAux]
  | cons l0 ls ih =>
    simp only [matchLinesAux]
    by_cases h : rx l0 = true
    · rw [if_pos h]
      apply List.pairwise_cons.mpr
      exact ⟨fun y hy => Nat.lt_of_succ_le (matchLinesAux_le y hy), ih⟩
    · rw [if_neg h]
      exact ih

/-! ### The scan loop returns a prefix of the unbounded scan -/

theorem grepLoop_eq (rx : List Nat → Bool) (pf : Option String) (mr : Nat) :
    ∀ (files : List (String × List Nat)) (count : Nat),
    grepLoop rx pf mr files count = (grepAll rx pf files).take (mr - count) := by
  intro files
  induction files with
  | nil => intro count; simp [grepLoop, grepAll]
  | cons f rest ih =>
    intro count
    obtain ⟨p, c⟩ := f
    by_cases hk : pfKeep pf p = true
    · have hk2 : (pfKeep pf p = false) = False := by simp [hk]
      by_cases hc : mr ≤ count
      · have : mr - count = 0 := by omega
        simp [grepLoop, grepAll, hk2, hk, hc, this]
      · simp only [grepLoop, hk2, if_false, if_neg hc, grepAll, if_pos hk]
        rw [List.take_append_eq_append_take, ih]
        rw [← List.map_take]
        congr 1
        have hlen := List.length_take (mr - count) (scanFile rx c)
        have hmap : ((scanFile rx c).map
            (fun ns => (p, ns.1, ns.2))).length = (scanFile rx c).length := by
          simp
        rw [hmap]
        congr 1
        omega
    · have hk2 : pfKeep pf p = false := by simpa using hk
      simp [grepLoop, grepAll, hk2, ih]

theorem grep_eq_take (compile : String → Bool → Except String (List Nat → Bool))
    (cb : Codebase) (pattern : String) (pf : Option String) (mr : Nat)
    (cs : Bool) (rx : List Nat → Bool) (h : compile pattern cs = Except.ok rx) :
    grep compile cb pattern pf mr cs = (grepAll rx pf cb.files).take mr := by
  unfold grep
  rw [h]
  show grepLoop rx pf mr cb.files 0 = _
  rw [grepLoop_eq]
  simp

theorem grepAll_append (rx : List Nat → Bool) (pf : Option String)
    (l1 l2 : List (String × List Nat)) :
    grepAll rx pf (l1 ++ l2) = grepAll rx pf l1 ++ grepAll rx pf l2 := by
  induction l1 with
  | nil => simp [grepAll]
  | cons f rest ih =>
    obtain ⟨p, c⟩ := f
    simp [grepAll, ih]

theorem mem_grepAll {rx : List Nat → Bool} {pf : Option String} {p : String}
    {n : Nat} {s : String} :
    ∀ {files : List (String × List Nat)},
    ((p, n, s) ∈ grepAll rx pf files ↔
      ∃ c l, (p, c) ∈ files ∧ pfKeep pf p = true ∧
        (n, l) ∈ matchLinesAux rx 1 (splitByte 10 c) ∧ s = decodeLine l) := by
  intro files
  induction files with
  | nil => simp [grepAll]
  | cons f rest ih =>
    obtain ⟨q, c0⟩ := f
    simp only [grepAll, List.mem_append, ih, List.mem_cons]
    constructor
    · rintro (hin | ⟨c, l, hm, hkp, hml, hs⟩)
      · by_cases hk : pfKeep pf q = true
        · rw [if_pos hk] at hin
          simp only [scanFile, List.map_map, List.mem_map, Function.comp] at hin
          obtain ⟨nl, hnl, heq⟩ := hin
          have hq : q = p := by simpa using congrArg Prod.fst heq
          have hn : nl.1 = n := by simpa using congrArg (fun x => x.2.1) heq
          have hs : decodeLine nl.2 = s := by simpa using congrArg (fun x => x.2.2) heq
          subst hq
          exact ⟨c0, nl.2, Or.inl rfl, hk, by rw [← hn]; simpa using hnl, hs.symm⟩
        · rw [if_neg hk] at hin
          simp at hin
      · exact ⟨c, l, Or.inr hm, hkp, hml, hs⟩
    · rintro ⟨c, l, hm | hm, hkp, hml, hs⟩
      · have hq : p = q := by simpa using congrArg Prod.fst hm
        have hc : c = c0 := by simpa using congrArg Prod.snd hm
        subst hq
        subst hc
        left
        rw [if_pos hkp]
        simp only [scanFile, List.map_map, List.mem_map, Function.comp]
        exact ⟨(n, l), hml, by rw [hs]⟩
      · exact Or.inr ⟨c, l, hm, hkp, hml, hs⟩

theorem path_mem_of_mem_grepAll {rx : List Nat → Bool} {pf : Option String}
    {r : String × Nat × String} :
    ∀ {files : List (String × List Nat)},
    r ∈ grepAll rx pf files → r.1 ∈ files.map Prod.fst := by
  intro files
  induction files with
  | nil => intro h; simp [grepAll] at h
  | cons f rest ih =>
    intro h
    obtain ⟨q, c⟩ := f
    simp only [grepAll, List.mem_append] at h
    rcases h with h | h
    · by_cases hk : pfKeep pf q = true
      · rw [if_pos hk] at h
        simp only [List.mem_map] at h
        obtain ⟨ns, _, heq⟩ := h
        have : r.1 = q := by rw [← heq]
        simp [this]
      · rw [if_neg hk] at h
        simp at h
    · simp [ih h]

theorem keys_nodup_val_unique :
    ∀ {files : List (String × List Nat)}, (files.map Prod.fst).Nodup →
    ∀ {p : String} {c c2 : List Nat}, (p, c) ∈ files → (p, c2) ∈ files → c = c2 := by
  intro files
  induction files with
  | nil => intro _ p c c2 h1; simp at h1
  | cons f rest ih =>
    intro hnd p c c2 h1 h2
    obtain ⟨q, c0⟩ := f
    simp only [List.map_cons, List.nodup_cons] at hnd
    obtain ⟨hq, hrest⟩ := hnd
    rcases List.mem_cons.mp h1 with h1 | h1 <;> rcases List.mem_cons.mp h2 with h2 | h2
    · have e1 : c = c0 := by simpa using congrArg Prod.snd h1
      have e2 : c2 = c0 := by simpa using congrArg Prod.snd h2
      rw [e1, e2]
    · exfalso
      have hqp : p = q := by simpa using congrArg Prod.fst h1
      exact hq (by rw [← hqp]; exact List.mem_map_of_mem Prod.fst h2)
    · exfalso
      have hqp : p = q := by simpa using congrArg Prod.fst h2
      exact hq (by rw [← hqp]; exact List.mem_map_of_mem Prod.fst h1)
    · exact ih hrest h1 h2

/-! ### Ordering of the scan results -/

theorem pairwiseImpMem {α : Type} {R S : α → α → Prop} :
    ∀ {l : List α}, (∀ a b, a ∈ l → b ∈ l → R a b → S a b) →
      l.Pairwise R → l.Pairwise S := by
  intro l
  induction l with
  | nil => intro _ _; exact List.Pairwise.nil
  | cons x xs ih =>
    intro himp hp
    obtain ⟨hx, hxs⟩ := List.pairwise_cons.mp hp
    apply List.pairwise_cons.mpr
    constructor
    · intro y hy
      exact himp x y (List.mem_cons_self x xs) (List.mem_cons_of_mem x hy) (hx y hy)
    · exact ih (fun a b ha hb => himp a b (List.mem_cons_of_mem x ha)
        (List.mem_cons_of_mem x hb)) hxs

theorem pathPos_cons_self (L : List String) (p : String) :
    pathPos (p :: L) p = 0 := by
  simp [pathPos]

theorem pathPos_cons_ne (L : List String) (p q : String) (h : q ≠ p) :
    pathPos (q :: L) p = pathPos L p + 1 := by
  simp [pathPos, h]

theorem grepAll_pairwise {rx : List Nat → Bool} {pf : Option String} :
    ∀ {files : List (String × List Nat)}, (files.map Prod.fst).Nodup →
    (grepAll rx pf files).Pairwise (resLt (files.map Prod.fst)) := by
  intro files
  induction files with
  | nil => intro _; simp [grepAll]
  | cons f rest ih =>
    intro hnd
    obtain ⟨q, c⟩ := f
    simp only [List.map_cons, List.nodup_cons] at hnd
    obtain ⟨hq, hrest⟩ := hnd
    have hblockpath : ∀ x ∈ (if pfKeep pf q then
        (scanFile rx c).map (fun ns => (q, ns.1, ns.2)) else []), x.1 = q := by
      intro x hx
      by_cases hk : pfKeep pf q = true
      · rw [if_pos hk] at hx
        obtain ⟨ns, _, heq⟩ := List.mem_map.mp hx
        rw [← heq]
      · rw [if_neg hk] at hx
        simp at hx
    simp only [grepAll, List.map_cons]
    apply List.pairwise_append.mpr
    refine ⟨?_, ?_, ?_⟩
    · by_cases hk : pfKeep pf q = true
      · rw [if_pos hk]
        unfold scanFile
        rw [List.map_map]
        apply List.pairwise_map.mpr
        apply pairwiseImpMem ?_ (@matchLinesAux_pairwise rx 1 (splitByte 10 c))
        intro a b ha hb hab
        right
        exact ⟨rfl, hab⟩
      · rw [if_neg hk]
        exact List.Pairwise.nil
    · apply pairwiseImpMem ?_ (ih hrest)
      intro a b ha hb hab
      have hpa := path_mem_of_mem_grepAll ha
      have hpb := path_mem_of_mem_grepAll hb
      have hqa : q ≠ a.1 := fun h => hq (h ▸ hpa)
      have hqb : q ≠ b.1 := fun h => hq (h ▸ hpb)
      rcases hab with hlt | ⟨heq, hlt⟩
      · left
        rw [pathPos_cons_ne _ _ _ hqa, pathPos_cons_ne _ _ _ hqb]
        omega
      · right
        exact ⟨heq, hlt⟩
    · intro x hx y hy
      have hxq : x.1 = q := hblockpath x hx
      have hpy := path_mem_of_mem_grepAll hy
      have hqy : q ≠ y.1 := fun h => hq (h ▸ hpy)
      left
      rw [hxq, pathPos_cons_self, pathPos_cons_ne _ _ _ hqy]
      omega

/-! ### Properties of the file classifier -/

theorem no_dot_of_mem_text_filenames {s : String} (h : s ∈ text_filenames) :
    ('.' : Char) ∉ s.data := by
  simp only [text_filenames, List.mem_cons, List.not_mem_nil, or_false] at h
  rcases h with h | h | h | h | h | h | h | h | h | h <;> rw [h] <;> decide

theorem dot_mem_strLower {s : String} (h : ('.' : Char) ∈ s.data) :
    ('.' : Char) ∈ (strLower s).data := by
  unfold strLower
  have : Char.toLower '.' = '.' := rfl
  exact this ▸ List.mem_map_of_mem Char.toLower h

theorem rfindDotAux_eq_none {cs : List Char} (h : ('.' : Char) ∉ cs) :
    rfindDotAux cs = none := by
  induction cs with
  | nil => rfl
  | cons c cs ih =>
    have hc : c ≠ '.' := fun he => h (he ▸ List.mem_cons_self c cs)
    have hcs : ('.' : Char) ∉ cs := fun hm => h (List.mem_cons_of_mem c hm)
    unfold rfindDotAux
    rw [ih hcs]
    simp [hc]

theorem pathSuffix_empty_of_no_dot {nm : String} (h : ('.' : Char) ∉ nm.data) :
    pathSuffix nm = "" := by
  unfold pathSuffix
  rw [rfindDotAux_eq_none h]

theorem suffix_empty_of_mem_text_filenames {p : String}
    (h : strLower (pathName p) ∈ text_filenames) :
    pathSuffix (pathName p) = "" := by
  apply pathSuffix_empty_of_no_dot
  intro hdot
  exact no_dot_of_mem_text_filenames h (dot_mem_strLower hdot)

/-! ### Claim theorems -/

/-- C7: the file classifier accepts a path exactly when its lowercased
extension is in the closed extension set (which contains `.env`), or the
path has no extension and its lowercased file name is one of the ten
recognised extension-less names. -/
theorem C7_is_text_file_characterization :
    (∀ p : String, is_text_file p = true ↔
      (strLower (pathSuffix (pathName p)) ∈ text_extensions ∨
        (pathSuffix (pathName p) = "" ∧ strLower (pathName p) ∈ text_filenames))) ∧
    ".env" ∈ text_extensions ∧
    text_filenames = ["makefile", "dockerfile", "rakefile", "gemfile", "procfile",
      "readme", "license", "changelog", "contributing", "authors"] := by
  refine ⟨?_, by decide, rfl⟩
  intro p
  unfold is_text_file
  by_cases he : strLower (pathSuffix (pathName p)) ∈ text_extensions
  · rw [if_pos he]
    simp [he]
  · rw [if_neg he]
    simp only [decide_eq_true_eq]
    constructor
    · intro hmem
      exact Or.inr ⟨suffix_empty_of_mem_text_filenames hmem, hmem⟩
    · rintro (h | ⟨_, h⟩)
      · exact absurd h he
      · exact h

/-- C1: with a successfully compiled pattern, no path filter and no
truncation, the matches `grep` reports against a corpus file are exactly
the 1-based indices of the elements of the file bytes split on the byte
`\n` that the compiled pattern matches; the number of such elements is
the number of `\n` separators plus one, so the final line of a file with
no trailing newline is matchable at that index. -/
theorem C1_grep_reports_exact_line_indices
    (compile : String → Bool → Except String (List Nat → Bool))
    (cb : Codebase) (pattern : String) (cs : Bool) (mr : Nat)
    (rx : List Nat → Bool)
    (hok : compile pattern cs = Except.ok rx)
    (hnd : (cb.files.map Prod.fst).Nodup)
    (hm : allMatchCount rx none cb ≤ mr) :
    ∀ p c, (p, c) ∈ cb.files →
      ((∀ L, (∃ s, (p, L, s) ∈ grep compile cb pattern none mr cs) ↔
          (1 ≤ L ∧ L ≤ (splitByte 10 c).length ∧
            rx ((splitByte 10 c).getD (L - 1) []) = true)) ∧
        (splitByte 10 c).length = c.count 10 + 1) := by
  intro p c hpc
  refine ⟨?_, splitByte_length 10 c⟩
  intro L
  rw [grep_eq_take compile cb pattern none mr cs rx hok]
  have hm2 : (grepAll rx none cb.files).length ≤ mr := hm
  rw [List.take_of_length_le hm2]
  constructor
  · rintro ⟨s, hs⟩
    obtain ⟨c2, l, hc2, hkp, hml, _⟩ := mem_grepAll.mp hs
    have hcc : c2 = c := keys_nodup_val_unique hnd hc2 hpc
    subst hcc
    obtain ⟨j, hj, hL, hg, hr⟩ := mem_matchLinesAux.mp hml
    refine ⟨by omega, by omega, ?_⟩
    have hLj : L - 1 = j := by omega
    rw [hLj, hg]
    exact hr
  · rintro ⟨h1, h2, h3⟩
    refine ⟨decodeLine ((splitByte 10 c).getD (L - 1) []), ?_⟩
    apply mem_grepAll.mpr
    exact ⟨c, (splitByte 10 c).getD (L - 1) [], hpc, by simp [pfKeep],
      mem_matchLinesAux.mpr ⟨L - 1, by omega, by omega, rfl, h3⟩, rfl⟩

/-- C1 witness: on the one-file corpus `/r/a.txt` with bytes `x\n`, line
1 is reported for the pattern matching the byte `x`. -/
theorem C1_grep_reports_exact_line_indices_witness :
    ∃ s, ("/r/a.txt", 1, s) ∈ grep (fun _ _ => Except.ok (fun l => containsSeq [120] l))
      ⟨"/r", [("/r/a.txt", [120, 10])]⟩ "x" none 1000 true := by
  have h := C1_grep_reports_exact_line_indices
    (fun _ _ => Except.ok (fun l => containsSeq [120] l))
    ⟨"/r", [("/r/a.txt", [120, 10])]⟩ "x" true 1000
    (fun l => containsSeq [120] l) rfl (by decide) (by decide)
  exact ((h "/r/a.txt" [120, 10] (by decide)).1 1).mpr (by decide)

/-- C2 counterexample: the corpus dict holds files in insertion (walk)
order, which `os.walk` does not produce in ascending path order — a
top-level `z.txt` is walked and inserted before `a/b.txt`. On such a
corpus `grep` returns the `z.txt` match first, so the returned list is
not in non-decreasing (path, line) order. -/
theorem C2_counterexample_not_path_sorted :
    grep compileModel ⟨"/r", [("/r/z.txt", [120, 10]), ("/r/a/b.txt", [120, 10])]⟩
        "x" none 1000 true =
      [("/r/z.txt", 1, "x"), ("/r/a/b.txt", 1, "x")] ∧
    ¬ (([("/r/z.txt", 1, "x"), ("/r/a/b.txt", 1, "x")] : List (String × Nat × String)).Pairwise
        (fun a b => a.1 < b.1 ∨ (a.1 = b.1 ∧ a.2.1 ≤ b.2.1))) := by
  constructor
  · decide
  · intro h
    have h2 := (List.pairwise_cons.mp h).1 ("/r/a/b.txt", 1, "x") (by decide)
    rcases h2 with h2 | ⟨h2, _⟩
    · rw [String.lt_iff_toList_lt] at h2
      exact absurd h2 (by decide)
    · exact absurd h2 (by decide)

/-- C2 amended: for every corpus whose file paths are distinct (a dict
invariant), `grep` returns its results following the corpus insertion
order of files — not necessarily ascending path order — with line
numbers strictly ascending within each file, and no duplicate
(path, line number) entries. -/
theorem C2_results_follow_corpus_order
    (compile : String → Bool → Except String (List Nat → Bool))
    (cb : Codebase) (pattern : String) (pf : Option String) (mr : Nat) (cs : Bool)
    (hnd : (cb.files.map Prod.fst).Nodup) :
    (grep compile cb pattern pf mr cs).Pairwise (resLt (cb.files.map Prod.fst)) ∧
    ((grep compile cb pattern pf mr cs).map (fun r => (r.1, r.2.1))).Nodup := by
  have hp : (grep compile cb pattern pf mr cs).Pairwise (resLt (cb.files.map Prod.fst)) := by
    unfold grep
    cases h : compile pattern cs with
    | error e => exact List.Pairwise.nil
    | ok rx =>
      show (grepLoop rx pf mr cb.files 0).Pairwise (resLt (cb.files.map Prod.fst))
      rw [grepLoop_eq]
      exact List.Pairwise.sublist (List.take_sublist _ _) (grepAll_pairwise hnd)
  refine ⟨hp, ?_⟩
  have hne : (grep compile cb pattern pf mr cs).Pairwise
      (fun a b => (a.1, a.2.1) ≠ (b.1, b.2.1)) := by
    apply pairwiseImpMem ?_ hp
    intro a b _ _ hab heq
    have hab2 : pathPos (cb.files.map Prod.fst) a.1 < pathPos (cb.files.map Prod.fst) b.1 ∨
        (a.1 = b.1 ∧ a.2.1 < b.2.1) := hab
    have h1 : a.1 = b.1 := by simpa using congrArg Prod.fst heq
    have h2 : a.2.1 = b.2.1 := by simpa using congrArg Prod.snd heq
    rcases hab2 with hlt | ⟨_, hlt⟩
    · rw [h1] at hlt
      exact Nat.lt_irrefl _ hlt
    · rw [h2] at hlt
      exact Nat.lt_irrefl _ hlt
  exact List.pairwise_map.mpr hne

/-- C2 witness: the order property instantiated on a two-file corpus
with distinct paths. -/
theorem C2_results_follow_corpus_order_witness :
    (grep compileModel ⟨"/r", [("/r/z.txt", [120, 10]), ("/r/a/b.txt", [120, 10])]⟩
        "x" none 1000 true).Pairwise
      (resLt ((([("/r/z.txt", [120, 10]), ("/r/a/b.txt", [120, 10])] :
        List (String × List Nat))).map Prod.fst)) ∧
    ((grep compileModel ⟨"/r", [("/r/z.txt", [120, 10]), ("/r/a/b.txt", [120, 10])]⟩
        "x" none 1000 true).map (fun r => (r.1, r.2.1))).Nodup :=
  C2_results_follow_corpus_order compileModel
    ⟨"/r", [("/r/z.txt", [120, 10]), ("/r/a/b.txt", [120, 10])]⟩
    "x" none 1000 true (by decide)

/-- C3: the result list of `grep` never exceeds `max_results` entries,
and once a prefix of the corpus has already produced `max_results`
results, the remaining files are never scanned: extending the corpus
beyond that point leaves the result unchanged. -/
theorem C3_max_results_bound_and_early_stop
    (compile : String → Bool → Except String (List Nat → Bool))
    (root : String) (files1 files2 : List (String × List Nat))
    (pattern : String) (pf : Option String) (mr : Nat) (cs : Bool) :
    (grep compile ⟨root, files1⟩ pattern pf mr cs).length ≤ mr ∧
    ((grep compile ⟨root, files1⟩ pattern pf mr cs).length = mr →
      grep compile ⟨root, files1 ++ files2⟩ pattern pf mr cs =
        grep compile ⟨root, files1⟩ pattern pf mr cs) := by
  constructor
  · cases h : compile pattern cs with
    | error e =>
      unfold grep
      rw [h]
      show (List.length []) ≤ mr
      simp
    | ok rx =>
      rw [grep_eq_take compile ⟨root, files1⟩ pattern pf mr cs rx h]
      rw [List.length_take]
      exact Nat.min_le_left _ _
  · intro hlen
    cases h : compile pattern cs with
    | error e =>
      unfold grep
      rw [h]
    | ok rx =>
      rw [grep_eq_take compile ⟨root, files1⟩ pattern pf mr cs rx h] at hlen ⊢
      rw [grep_eq_take compile ⟨root, files1 ++ files2⟩ pattern pf mr cs rx h]
      rw [List.length_take] at hlen
      dsimp only at hlen ⊢
      rw [grepAll_append, List.take_append_eq_append_take]
      have h0 : mr - (grepAll rx pf files1).length = 0 := by omega
      rw [h0]
      simp

/-- C3 witness: a corpus whose first file already yields `max_results`
matches; appending a second file does not change the result. -/
theorem C3_max_results_bound_and_early_stop_witness :
    (grep compileModel ⟨"/r", [("/r/a.txt", [120, 10, 120, 10])]⟩ "x" none 1 true).length ≤ 1 ∧
    grep compileModel ⟨"/r", [("/r/a.txt", [120, 10, 120, 10]), ("/r/b.txt", [120, 10])]⟩
        "x" none 1 true =
      grep compileModel ⟨"/r", [("/r/a.txt", [120, 10, 120, 10])]⟩ "x" none 1 true := by
  have h := C3_max_results_bound_and_early_stop compileModel "/r"
    [("/r/a.txt", [120, 10, 120, 10])] [("/r/b.txt", [120, 10])] "x" none 1 true
  exact ⟨h.1, h.2 (by decide)⟩

/-- C4 counterexample: the pattern `(` fails to compile, yet `grep`
returns the empty list — exactly what a successful search with zero
matches (here the pattern `z` over the same corpus) returns — and
`grep_formatted` renders the same no-matches message a match-less
successful search would produce. The compiler message is only printed,
never returned to the caller. -/
theorem C4_counterexample_invalid_pattern_indistinguishable :
    compileModel "(" true =
      Except.error "missing ), unterminated subpattern at position 0" ∧
    grep compileModel ⟨"/r", [("/r/a.txt", [120, 10])]⟩ "(" none 1000 true = [] ∧
    grep compileModel ⟨"/r", [("/r/a.txt", [120, 10])]⟩ "z" none 1000 true = [] ∧
    grep_formatted compileModel ⟨"/r", [("/r/a.txt", [120, 10])]⟩ "(" none 1000 =
      "No matches found for pattern: (" := by
  refine ⟨rfl, rfl, by decide, by decide⟩

/-- C4 amended: a pattern that fails to compile makes `grep` print the
compiler message and return the empty result list, and makes
`grep_formatted` return the no-matches message — a result the caller
cannot distinguish from a successful search with zero matches. -/
theorem C4_invalid_pattern_returns_empty
    (compile : String → Bool → Except String (List Nat → Bool))
    (cb : Codebase) (pattern : String) (pf : Option String) (mr : Nat) (cs : Bool)
    (e e2 : String)
    (h : compile pattern cs = Except.error e)
    (h2 : compile pattern true = Except.error e2) :
    grep compile cb pattern pf mr cs = [] ∧
    grep_formatted compile cb pattern pf mr =
      "No matches found for pattern: " ++ pattern := by
  have hg : grep compile cb pattern pf mr cs = [] := by
    unfold grep
    rw [h]
  have hg2 : grep compile cb pattern pf mr true = [] := by
    unfold grep
    rw [h2]
  refine ⟨hg, ?_⟩
  unfold grep_formatted
  rw [hg2]
  simp

/-- C4 witness: the amended behaviour instantiated at a compile failure. -/
theorem C4_invalid_pattern_returns_empty_witness :
    grep (fun _ _ => Except.error "boom") ⟨"/r", [("/r/a.txt", [120, 10])]⟩
        "(" none 1000 true = [] ∧
    grep_formatted (fun _ _ => Except.error "boom") ⟨"/r", [("/r/a.txt", [120, 10])]⟩
        "(" none 1000 = "No matches found for pattern: (" := by
  have h := C4_invalid_pattern_returns_empty (fun _ _ => Except.error "boom")
    ⟨"/r", [("/r/a.txt", [120, 10])]⟩ "(" none 1000 true "boom" "boom" rfl rfl
  exact ⟨h.1, h.2.trans (by decide)⟩

/-- C5 counterexample: on a corpus with exactly one match and
`max_results = 1`, the summary carries the suffix `(limited to first 1)`
although nothing was truncated — raising the bound to 2 returns the very
same single match. The suffix appears whenever the returned count equals
`max_results`, not exactly when truncation occurred. -/
theorem C5_counterexample_limited_suffix_without_truncation :
    grep_formatted compileModel ⟨"/r", [("/r/a.txt", [120, 10])]⟩ "x" none 1 =
      "a.txt:1:x\n--- Found 1 matches (limited to first 1) ---" ∧
    grep compileModel ⟨"/r", [("/r/a.txt", [120, 10])]⟩ "x" none 2 true =
      grep compileModel ⟨"/r", [("/r/a.txt", [120, 10])]⟩ "x" none 1 true := by
  exact ⟨by decide, by decide⟩

/-- C5 amended: the formatted output is one
`relative-path:line:content` line per match followed by the summary
line `--- Found N matches ---`, whose `(limited to first M)` suffix
appears exactly when the returned count equals `max_results` (which
happens on truncation but also when the total match count equals
`max_results` exactly); when the result list is empty the output is the
no-matches message. -/
theorem C5_formatted_output_shape
    (compile : String → Bool → Except String (List Nat → Bool))
    (cb : Codebase) (pattern : String) (pf : Option String) (mr : Nat) :
    (grep compile cb pattern pf mr true = [] →
      grep_formatted compile cb pattern pf mr =
        "No matches found for pattern: " ++ pattern) ∧
    (grep compile cb pattern pf mr true ≠ [] →
      grep_formatted compile cb pattern pf mr =
        String.intercalate "\n" ((grep compile cb pattern pf mr true).map
          (fun r => relpathModel r.1 cb.codebase_path ++ ":" ++
            Nat.repr r.2.1 ++ ":" ++ r.2.2)) ++
        ("\n--- Found " ++ Nat.repr (grep compile cb pattern pf mr true).length ++
          " matches" ++
          (if (grep compile cb pattern pf mr true).length = mr then
            " (limited to first " ++ Nat.repr mr ++ ")" else "") ++ " ---")) := by
  constructor
  · intro h
    unfold grep_formatted
    rw [if_pos h]
  · intro h
    unfold grep_formatted
    rw [if_neg h]

/-- C5 witness: the no-matches branch instantiated on a corpus without
the pattern. -/
theorem C5_formatted_output_shape_witness :
    grep compileModel ⟨"/r", [("/r/a.txt", [120, 10])]⟩ "q" none 5 true = [] ∧
    grep_formatted compileModel ⟨"/r", [("/r/a.txt", [120, 10])]⟩ "q" none 5 =
      "No matches found for pattern: " ++ "q" := by
  have h := C5_formatted_output_shape compileModel
    ⟨"/r", [("/r/a.txt", [120, 10])]⟩ "q" none 5
  exact ⟨by decide, h.1 (by decide)⟩

/-- C6 counterexample: on the line bytes `abc\r\r` the implementation
reports the text `abc` — `rstrip("\r\n")` removes BOTH trailing carriage
returns — whereas stripping a single trailing CR or LF as the sentence
states would report `abc\r`. -/
theorem C6_counterexample_strips_all_trailing_crlf :
    grep compileModel ⟨"/r", [("/r/a.txt", [97, 98, 99, 13, 13])]⟩ "abc" none 1000 true =
      [("/r/a.txt", 1, "abc")] ∧
    String.mk (specStripSingleCRLF (utf8DecodeReplace [97, 98, 99, 13, 13])) = "abc\r" ∧
    ("abc" : String) ≠ "abc\r" := by
  refine ⟨by decide, by decide, by decide⟩

/-- C6 amended: every reported line text is the matched line bytes
decoded as UTF-8 with invalid sequences replaced by U+FFFD (the decoder
is total, so decoding never fails), with ALL trailing `\r` and `\n`
characters stripped. -/
theorem C6_reported_text_decode_rstrip
    (compile : String → Bool → Except String (List Nat → Bool))
    (cb : Codebase) (pattern : String) (pf : Option String) (mr : Nat) (cs : Bool) :
    ∀ p L s, (p, L, s) ∈ grep compile cb pattern pf mr cs →
      ∃ c, (p, c) ∈ cb.files ∧ L - 1 < (splitByte 10 c).length ∧
        s = String.mk (pyRstripCRLF (utf8DecodeReplace
          ((splitByte 10 c).getD (L - 1) []))) := by
  intro p L s hmem
  unfold grep at hmem
  cases h : compile pattern cs with
  | error e =>
    rw [h] at hmem
    exact absurd hmem (List.not_mem_nil _)
  | ok rx =>
    rw [h] at hmem
    have hmem2 : (p, L, s) ∈ grepLoop rx pf mr cb.files 0 := hmem
    rw [grepLoop_eq] at hmem2
    have hmem3 := List.take_subset _ _ hmem2
    obtain ⟨c, l, hc, hkp, hml, hs⟩ := mem_grepAll.mp hmem3
    obtain ⟨j, hj, hL, hg, hr⟩ := mem_matchLinesAux.mp hml
    refine ⟨c, hc, by omega, ?_⟩
    have hLj : L - 1 = j := by omega
    rw [hLj, hg, hs]
    rfl

/-- C6 witness: the reported text for the line bytes `x\r\r` (followed
by a newline) is `x`. -/
theorem C6_reported_text_decode_rstrip_witness :
    ∃ c, ("/r/a.txt", c) ∈
        (⟨"/r", [("/r/a.txt", [120, 13, 13, 10])]⟩ : Codebase).files ∧
      1 - 1 < (splitByte 10 c).length ∧
      "x" = String.mk (pyRstripCRLF (utf8DecodeReplace
        ((splitByte 10 c).getD (1 - 1) []))) :=
  C6_reported_text_decode_rstrip compileModel
    ⟨"/r", [("/r/a.txt", [120, 13, 13, 10])]⟩ "x" none 1000 true
    "/r/a.txt" 1 "x" (by decide)

/-- C8: the loading walk admits no zero-length file into the corpus
(`_mmap_file` returns before mapping when the size is 0), so every
search result refers to a file of non-zero length. -/
theorem C8_zero_length_files_excluded
    (fs : List (String × List Nat)) (mmapOk : String → Bool)
    (root pattern : String)
    (compile : String → Bool → Except String (List Nat → Bool))
    (pf : Option String) (mr : Nat) (cs : Bool) :
    (∀ pc, pc ∈ load_codebase fs mmapOk → pc.2 ≠ []) ∧
    (∀ r, r ∈ grep compile ⟨root, load_codebase fs mmapOk⟩ pattern pf mr cs →
      ∃ c, (r.1, c) ∈ load_codebase fs mmapOk ∧ c ≠ []) := by
  have h1 : ∀ pc, pc ∈ load_codebase fs mmapOk → pc.2 ≠ [] := by
    intro pc hpc hnil
    have hf := (List.mem_filter.mp hpc).2
    rw [hnil] at hf
    simp at hf
  refine ⟨h1, ?_⟩
  intro r hmem
  obtain ⟨p, n, s⟩ := r
  unfold grep at hmem
  cases h : compile pattern cs with
  | error e =>
    rw [h] at hmem
    exact absurd hmem (List.not_mem_nil _)
  | ok rx =>
    rw [h] at hmem
    have hmem2 : (p, n, s) ∈ grepLoop rx pf mr (load_codebase fs mmapOk) 0 := hmem
    rw [grepLoop_eq] at hmem2
    have hmem3 := List.take_subset _ _ hmem2
    obtain ⟨c, l, hc, _, _, _⟩ := mem_grepAll.mp hmem3
    exact ⟨c, hc, h1 (p, c) hc⟩

/-- C8 witness: a walk offering an empty `a.py` and a one-byte `b.py`
loads only the latter, and the search result refers to it. -/
theorem C8_zero_length_files_excluded_witness :
    (("/r/b.py", [120]) : String × List Nat).2 ≠ [] ∧
    (∃ c, ("/r/b.py", c) ∈ load_codebase
        [("/r/a.py", ([] : List Nat)), ("/r/b.py", [120])] (fun _ => true) ∧ c ≠ []) := by
  have h := C8_zero_length_files_excluded
    [("/r/a.py", ([] : List Nat)), ("/r/b.py", [120])] (fun _ => true)
    "/r" "x" compileModel none 1000 true
  exact ⟨h.1 ("/r/b.py", [120]) (by decide), h.2 ("/r/b.py", 1, "x") (by decide)⟩

/-- C9: a `grep_formatted` invocation leaves the codebase object
unchanged, so two successive invocations with the same pattern, path
filter and bound on an unchanged corpus produce identical output
strings. -/
theorem C9_identical_searches_identical_output
    (compile : String → Bool → Except String (List Nat → Bool))
    (cb : Codebase) (pattern : String) (pf : Option String) (mr : Nat) :
    (grep_formatted_call compile cb pattern pf mr).1 =
      (grep_formatted_call compile
        (grep_formatted_call compile cb pattern pf mr).2 pattern pf mr).1 ∧
    (grep_formatted_call compile cb pattern pf mr).2 = cb :=
  ⟨rfl, rfl⟩

/-- Congruence of `List.any` in its predicate. -/
theorem any_congr_fun {α : Type} {p q : α → Bool} (h : ∀ a, p a = q a) :
    ∀ (l : List α), l.any p = l.any q := by
  intro l
  induction l with
  | nil => rfl
  | cons x xs ih => simp only [List.any_cons, h x, ih]

/-- C10 counterexample: for the pattern `[aA]` — which contains a
letter — the case-sensitive and case-insensitive searches coincide on
EVERY corpus, so no corpus contents exist on which the formatted search
fails to reproduce the case-insensitive result; the claimed
quantification over every pattern containing a letter is false. -/
theorem C10_counterexample_case_closed_pattern :
    (("[aA]".data.any (fun c => c.isAlpha)) = true) ∧
    ∀ (cb : Codebase) (pf : Option String) (mr : Nat),
      grep_formatted compileModel cb "[aA]" pf mr =
        format_results cb.codebase_path "[aA]" mr
          (grep compileModel cb "[aA]" pf mr false) := by
  refine ⟨by decide, ?_⟩
  intro cb pf mr
  have h1 : compileModel "[aA]" true =
      Except.ok (fun line => line.any (fun b =>
        [97, 65].any (fun c => decide (b = c)))) := rfl
  have h2 : compileModel "[aA]" false =
      Except.ok (fun line => line.any (fun b =>
        [97, 65].any (fun c => decide (asciiFold b = asciiFold c)))) := rfl
  have hb : ∀ b : Nat, ([97, 65].any (fun c => decide (b = c))) =
      ([97, 65].any (fun c => decide (asciiFold b = asciiFold c))) := by
    intro b
    by_cases h97 : b = 97
    · subst h97
      rfl
    · by_cases h65 : b = 65
      · subst h65
        rfl
      · have hne : asciiFold b ≠ 97 := by
          unfold asciiFold
          by_cases hc : (65 ≤ b && b ≤ 90) = true
          · rw [if_pos hc]
            simp only [Bool.and_eq_true, decide_eq_true_eq] at hc
            omega
          · rw [if_neg hc]
            simp only [Bool.and_eq_true, decide_eq_true_eq, not_and, not_le] at hc
            omega
        simp only [List.any_cons, List.any_nil, Bool.or_false]
        rw [show asciiFold 97 = 97 from rfl, show asciiFold 65 = 97 from rfl]
        rw [decide_eq_false h97, decide_eq_false h65, decide_eq_false hne]
  have hfun : compileModel "[aA]" true = compileModel "[aA]" false := by
    rw [h1, h2]
    have hfn : (fun line => line.any (fun b => [97, 65].any (fun c => decide (b = c)))) =
        (fun line : List Nat => line.any (fun b =>
          [97, 65].any (fun c => decide (asciiFold b = asciiFold c)))) := by
      funext line
      exact any_congr_fun hb line
    rw [hfn]
  have hgrep : grep compileModel cb "[aA]" pf mr true =
      grep compileModel cb "[aA]" pf mr false := by
    unfold grep
    rw [hfun]
  show format_results cb.codebase_path "[aA]" mr
      (grep compileModel cb "[aA]" pf mr true) = _
  rw [hgrep]

/-- C10 amended: `grep_formatted` exposes no case-sensitivity parameter
and always invokes `grep` with its default `case_sensitive=True`; for
some patterns containing a letter (such as the literal `a`) corpus
contents exist on which the formatted search therefore cannot reproduce
the case-insensitive result — but not for every such pattern, as the
counterexample `[aA]` shows. -/
theorem C10_formatted_always_case_sensitive :
    (∀ (compile : String → Bool → Except String (List Nat → Bool))
        (cb : Codebase) (pattern : String) (pf : Option String) (mr : Nat),
      grep_formatted compile cb pattern pf mr =
        format_results cb.codebase_path pattern mr
          (grep compile cb pattern pf mr true)) ∧
    (∃ cb : Codebase, grep compileModel cb "a" none 1000 true ≠
      grep compileModel cb "a" none 1000 false) := by
  constructor
  · intro compile cb pattern pf mr
    rfl
  · exact ⟨⟨"/r", [("/r/a.txt", [65, 10])]⟩, by decide⟩
